import Mathlib

/-!
# Verification of the `CCModel` soft-delete / audit layer of MoxTrap

The repository's `CCModel` base class (exercised by
`tests/model/test_ccmodel.py`) provides:

(a) on save, stamp `created_on`/`created_by`/`modified_on`/`modified_by`
    from the current time and an optional caller-supplied user;
(b) on delete, stamp `deleted_on`/`deleted_by` instead of removing the
    row, and recursively apply the same stamp to objects reachable via
    statically declared cascade relations, skipping any already
    soft-deleted;
(c) on undelete, clear those same fields, again recursively, but only for
    dependents whose deletion timestamp exactly matches the parent's;
(d) default queries exclude soft-deleted rows unless a different manager
    is used.

We embed this as a pure model: a database is a list of objects carrying
the audit fields; the statically declared cascade relation is the
reverse foreign key from dependent to parent (mirroring the
`Suite.product` relation the tests use); each lifecycle operation maps a
per-object stamping function over the database after collecting the
cascade set by a depth-first walk.
-/

/-- A user identifier.  `Option UserId` is `None` / a concrete user. -/
abbrev UserId := Nat

/-- A timestamp (the mocked `datetime.utcnow()` values in the tests are
arbitrary distinguishable instants, so `Nat` suffices). -/
abbrev Time := Nat

/-- Modelled from the spec: a record of a `CCModel` subclass.  `id` is
`none` until the object is first saved (the framework's "new object"
test); `parent` is the statically declared cascade relation (the reverse
foreign key from dependent to parent, as in `Suite.product`); the six
audit fields are as listed in the spec's glossary. -/
structure CCObject where
  id : Option Nat
  name : String
  parent : Option Nat
  created_on : Option Time
  created_by : Option UserId
  modified_on : Option Time
  modified_by : Option UserId
  deleted_on : Option Time
  deleted_by : Option UserId
deriving Repr, DecidableEq

/-- A database: the rows of the table, in storage order. -/
abbrev CCDatabase := List CCObject

/-- A fresh, never-saved object (all audit fields unset, no id yet). -/
def newObject (name : String) (parent : Option Nat) : CCObject :=
  { id := none, name := name, parent := parent,
    created_on := none, created_by := none,
    modified_on := none, modified_by := none,
    deleted_on := none, deleted_by := none }

/-- Modelled from the spec: `CCModel.save(user=None)`.  On save, stamp
the audit fields from the current time and the optional caller-supplied
user: a new object (no id yet) gets `created_on`/`created_by` and an id;
every save stamps `modified_on`/`modified_by`. -/
def save (now : Time) (user : Option UserId) (newId : Nat)
    (o : CCObject) : CCObject :=
  let o1 :=
    match o.id with
    | none => { o with id := some newId, created_on := some now,
                       created_by := user }
    | some _ => o
  { o1 with modified_on := some now, modified_by := user }

/-- Modelled from the spec: `Model.objects.create(...)` builds a fresh
object and saves it. -/
def create (now : Time) (user : Option UserId) (newId : Nat)
    (name : String) (parent : Option Nat) : CCObject :=
  save now user newId (newObject name parent)

/-- Does `o` carry one of the ids in `ids`? -/
def hasIdIn (ids : List Nat) (o : CCObject) : Bool :=
  match o.id with
  | some i => ids.contains i
  | none => false

/-- Look a row up by id (the first row carrying that id). -/
def getById (db : CCDatabase) (i : Nat) : Option CCObject :=
  db.find? (fun o => o.id == some i)

/-- Generic cascade collection: starting from `ids`, walk the declared
relation `next` depth-first, gathering every id visited.  `fuel` bounds
the walk (the relation graph is finite). -/
def collectCascade (next : Nat → List Nat) : Nat → List Nat → List Nat
  | 0, _ => []
  | fuel + 1, ids =>
      ids ++ ids.flatMap (fun pid => collectCascade next fuel (next pid))

/-- The ids of the not-yet-soft-deleted dependents of the object with id
`pid`, via the declared cascade relation. -/
def dependents (db : CCDatabase) (pid : Nat) : List Nat :=
  (db.filter (fun o => o.parent == some pid && o.deleted_on == none)).filterMap
    (fun o => o.id)

/-- Modelled from the spec: stamp `deleted_on`/`deleted_by` on one row if
its id was collected for deletion, skipping any already soft-deleted. -/
def deleteStamp (now : Time) (user : Option UserId) (ids : List Nat)
    (o : CCObject) : CCObject :=
  if hasIdIn ids o && o.deleted_on == none then
    { o with deleted_on := some now, deleted_by := user }
  else o

/-- Modelled from the spec: `delete(user=None)` on a queryset whose rows
have ids `roots` (instance delete is the singleton case).  Instead of
removing rows, it stamps `deleted_on`/`deleted_by` on the roots and,
recursively, on every not-yet-deleted object reachable via the declared
cascade relation. -/
def delete (now : Time) (user : Option UserId) (roots : List Nat)
    (db : CCDatabase) : CCDatabase :=
  db.map (deleteStamp now user
    (collectCascade (dependents db) (db.length + 1) roots))

/-- The ids of the dependents of `pid` whose deletion timestamp exactly
matches `t` (the deleting parent's timestamp). -/
def matchingDependents (db : CCDatabase) (t : Time) (pid : Nat) :
    List Nat :=
  (db.filter (fun o => o.parent == some pid && o.deleted_on == some t)).filterMap
    (fun o => o.id)

/-- Clear `deleted_on`/`deleted_by` on one row if its id was collected
for undeletion. -/
def clearStamp (ids : List Nat) (o : CCObject) : CCObject :=
  if hasIdIn ids o then { o with deleted_on := none, deleted_by := none }
  else o

/-- Modelled from the spec: `instance.undelete()`.  Clears
`deleted_on`/`deleted_by` on the instance and, recursively, on the
dependents reachable via the declared cascade relation — but only those
whose deletion timestamp exactly matches the instance's, to avoid
resurrecting independently-deleted dependents. -/
def undelete (pid : Nat) (db : CCDatabase) : CCDatabase :=
  match getById db pid with
  | none => db
  | some p =>
      match p.deleted_on with
      | none => db
      | some t =>
          db.map (clearStamp
            (collectCascade (matchingDependents db t) (db.length + 1) [pid]))

/-- Modelled from the spec: `qs.undelete()` on an `everything`-manager
queryset whose rows have ids `roots`: undelete each root in turn. -/
def querysetUndelete (roots : List Nat) (db : CCDatabase) : CCDatabase :=
  roots.foldl (fun d pid => undelete pid d) db

/-- Modelled from the spec: `qs.update(...)` stamps
`modified_on`/`modified_by` (from the current time and the optional
user) on every row of the queryset, alongside the field assignment
(`name` here, as in the tests). -/
def updateStamp (now : Time) (user : Option UserId) (newName : String)
    (qs : List Nat) (o : CCObject) : CCObject :=
  if hasIdIn qs o then
    { o with name := newName, modified_on := some now,
             modified_by := user }
  else o

/-- Modelled from the spec: `qs.update(...)` applied to every row of the
queryset. -/
def update (now : Time) (user : Option UserId) (newName : String)
    (qs : List Nat) (db : CCDatabase) : CCDatabase :=
  db.map (updateStamp now user newName qs)

/-- Modelled from the spec: the default `objects` manager — queries
exclude soft-deleted rows. -/
def objectsAll (db : CCDatabase) : CCDatabase :=
  db.filter (fun o => o.deleted_on == none)

/-- Modelled from the spec: the `everything` manager — queries include
both deleted and non-deleted rows. -/
def everythingAll (db : CCDatabase) : CCDatabase := db

/-- A saved product row, as created by `ProductFactory` in the tests. -/
def pEx : CCObject :=
  { id := some 1, name := "Foo", parent := none,
    created_on := some 0, created_by := none,
    modified_on := some 0, modified_by := none,
    deleted_on := none, deleted_by := none }

/-- A saved suite row whose declared cascade parent is `pEx`. -/
def sEx : CCObject :=
  { pEx with id := some 2, name := "Bar", parent := some 1 }

/-- The product/suite database of the cascade tests. -/
def exDb : CCDatabase := [pEx, sEx]

/-- The product row after a soft delete at time 5 by user 7. -/
def pDel : CCObject :=
  { pEx with deleted_on := some 5, deleted_by := some 7 }

/-- The suite row after being cascade-deleted together with `pDel`. -/
def sDelMatch : CCObject :=
  { sEx with deleted_on := some 5, deleted_by := some 7 }

/-- The suite row after an earlier, independent soft delete at time 3. -/
def sDelOther : CCObject :=
  { sEx with deleted_on := some 3 }

/-! ## Helper lemmas -/

/-- Looking a row up by id commutes with mapping an id-preserving
function over the database. -/
theorem getById_map (g : CCObject → CCObject)
    (hg : ∀ o, (g o).id = o.id) (db : CCDatabase) (i : Nat) :
    getById (db.map g) i = (getById db i).map g := by
  induction db with
  | nil => rfl
  | cons a rest ih =>
    simp only [getById, List.map_cons, List.find?_cons] at *
    rw [hg a]
    cases h : (a.id == some i) with
    | true => rfl
    | false => exact ih

/-- A successful lookup returns a member row carrying the id. -/
theorem getById_spec {db : CCDatabase} {i : Nat} {s : CCObject}
    (h : getById db i = some s) : s ∈ db ∧ s.id = some i := by
  refine ⟨List.mem_of_find?_eq_some h, ?_⟩
  have := List.find?_some h
  simpa using this

/-- The starting ids are always in the cascade collection (positive
fuel). -/
theorem mem_collectCascade_self (next : Nat → List Nat) (fuel : Nat)
    (ids : List Nat) (i : Nat) (h : i ∈ ids) :
    i ∈ collectCascade next (fuel + 1) ids := by
  simp only [collectCascade, List.mem_append]
  exact Or.inl h

/-- A direct dependent of a starting id is in the cascade collection
(fuel at least two). -/
theorem mem_collectCascade_step (next : Nat → List Nat) (fuel : Nat)
    (ids : List Nat) (pid i : Nat) (hp : pid ∈ ids)
    (hi : i ∈ next pid) :
    i ∈ collectCascade next (fuel + 2) ids := by
  simp only [collectCascade, List.mem_append, List.mem_flatMap]
  exact Or.inr ⟨pid, hp, Or.inl hi⟩

/-- Everything in the cascade collection is a starting id or a dependent
of some id. -/
theorem collectCascade_sound (next : Nat → List Nat) :
    ∀ (fuel : Nat) (ids : List Nat) (i : Nat),
      i ∈ collectCascade next fuel ids →
      i ∈ ids ∨ ∃ pid, i ∈ next pid := by
  intro fuel
  induction fuel with
  | zero => intro ids i h; simp [collectCascade] at h
  | succ n ih =>
    intro ids i h
    simp only [collectCascade, List.mem_append, List.mem_flatMap] at h
    rcases h with h | ⟨pid, _, hc⟩
    · exact Or.inl h
    · rcases ih _ _ hc with h2 | h2
      · exact Or.inr ⟨pid, h2⟩
      · exact Or.inr h2

/-- When stored ids are distinct, two member rows with the same id are
the same row. -/
theorem eq_of_id_nodup {db : CCDatabase}
    (hnd : (db.filterMap (fun o => o.id)).Nodup)
    {a b : CCObject} (ha : a ∈ db) (hb : b ∈ db) {i : Nat}
    (hai : a.id = some i) (hbi : b.id = some i) : a = b := by
  induction db with
  | nil => cases ha
  | cons o rest ih =>
    rw [List.filterMap_cons] at hnd
    rcases List.mem_cons.1 ha with ha1 | ha1 <;>
      rcases List.mem_cons.1 hb with hb1 | hb1
    · rw [ha1, hb1]
    · subst ha1
      rw [hai] at hnd
      exfalso
      exact (List.nodup_cons.1 hnd).1
        (List.mem_filterMap.2 ⟨b, hb1, hbi⟩)
    · subst hb1
      rw [hbi] at hnd
      exfalso
      exact (List.nodup_cons.1 hnd).1
        (List.mem_filterMap.2 ⟨a, ha1, hai⟩)
    · cases ho : o.id with
      | none => rw [ho] at hnd; exact ih hnd ha1 hb1
      | some j =>
        rw [ho] at hnd
        exact ih (List.nodup_cons.1 hnd).2 ha1 hb1

/-- A not-yet-deleted dependent row's id is in `dependents`. -/
theorem mem_dependents {db : CCDatabase} {s : CCObject} {pid i : Nat}
    (hs : s ∈ db) (hp : s.parent = some pid) (hd : s.deleted_on = none)
    (hid : s.id = some i) : i ∈ dependents db pid := by
  simp only [dependents, List.mem_filterMap, List.mem_filter]
  exact ⟨s, ⟨hs, by simp [hp, hd]⟩, hid⟩

/-- Every id in `dependents` belongs to a member row that is a
not-yet-deleted dependent. -/
theorem dependents_sound {db : CCDatabase} {pid i : Nat}
    (h : i ∈ dependents db pid) :
    ∃ o ∈ db, o.id = some i ∧ o.parent = some pid ∧
      o.deleted_on = none := by
  simp only [dependents, List.mem_filterMap, List.mem_filter] at h
  rcases h with ⟨o, ⟨ho, hcond⟩, hid⟩
  simp only [Bool.and_eq_true, beq_iff_eq] at hcond
  exact ⟨o, ho, hid, hcond.1, hcond.2⟩

/-- A dependent row whose deletion timestamp matches is in
`matchingDependents`. -/
theorem mem_matchingDependents {db : CCDatabase} {s : CCObject}
    {t : Time} {pid i : Nat} (hs : s ∈ db) (hp : s.parent = some pid)
    (hd : s.deleted_on = some t) (hid : s.id = some i) :
    i ∈ matchingDependents db t pid := by
  simp only [matchingDependents, List.mem_filterMap, List.mem_filter]
  exact ⟨s, ⟨hs, by simp [hp, hd]⟩, hid⟩

/-- Every id in `matchingDependents` belongs to a member row whose
deletion timestamp is exactly `t`. -/
theorem matchingDependents_sound {db : CCDatabase} {t : Time}
    {pid i : Nat} (h : i ∈ matchingDependents db t pid) :
    ∃ o ∈ db, o.id = some i ∧ o.parent = some pid ∧
      o.deleted_on = some t := by
  simp only [matchingDependents, List.mem_filterMap,
    List.mem_filter] at h
  rcases h with ⟨o, ⟨ho, hcond⟩, hid⟩
  simp only [Bool.and_eq_true, beq_iff_eq] at hcond
  exact ⟨o, ho, hid, hcond.1, hcond.2⟩

/-- `hasIdIn` holds when the row's id is among the collected ids. -/
theorem hasIdIn_eq_true {ids : List Nat} {o : CCObject} {i : Nat}
    (hid : o.id = some i) (h : i ∈ ids) : hasIdIn ids o = true := by
  simpa [hasIdIn, hid] using h

/-- `hasIdIn` fails when the row's id is not among the collected ids. -/
theorem hasIdIn_eq_false {ids : List Nat} {o : CCObject} {i : Nat}
    (hid : o.id = some i) (h : i ∉ ids) : hasIdIn ids o = false := by
  simpa [hasIdIn, hid] using h

/-- The delete stamp does not change a row's id. -/
theorem deleteStamp_id (now : Time) (user : Option UserId)
    (ids : List Nat) (o : CCObject) :
    (deleteStamp now user ids o).id = o.id := by
  unfold deleteStamp; split <;> rfl

/-- The clear stamp does not change a row's id. -/
theorem clearStamp_id (ids : List Nat) (o : CCObject) :
    (clearStamp ids o).id = o.id := by
  unfold clearStamp; split <;> rfl

/-- The update stamp does not change a row's id. -/
theorem updateStamp_id (now : Time) (user : Option UserId)
    (newName : String) (qs : List Nat) (o : CCObject) :
    (updateStamp now user newName qs o).id = o.id := by
  unfold updateStamp; split <;> rfl

/-- After a delete whose roots include `pid`, the not-yet-deleted root
row is stamped with the deletion time and user. -/
theorem getById_delete_root {db : CCDatabase} {pid : Nat} {p : CCObject}
    (now : Time) (user : Option UserId) {roots : List Nat}
    (hp : getById db pid = some p) (hroot : pid ∈ roots)
    (hnd : p.deleted_on = none) :
    getById (delete now user roots db) pid =
      some { p with deleted_on := some now, deleted_by := user } := by
  have hpid := (getById_spec hp).2
  rw [delete, getById_map _ (deleteStamp_id now user _), hp]
  have hmem : pid ∈ collectCascade (dependents db) (db.length + 1) roots :=
    mem_collectCascade_self _ _ _ _ hroot
  simp [deleteStamp, hasIdIn_eq_true hpid hmem, hnd]

/-- After a delete whose roots include `pid`, a not-yet-deleted direct
dependent of `pid` is stamped with the same deletion time and user. -/
theorem getById_delete_dependent {db : CCDatabase} {pid sid : Nat}
    {s : CCObject} (now : Time) (user : Option UserId)
    {roots : List Nat} (hroot : pid ∈ roots)
    (hs : getById db sid = some s) (hsp : s.parent = some pid)
    (hsnd : s.deleted_on = none) :
    getById (delete now user roots db) sid =
      some { s with deleted_on := some now, deleted_by := user } := by
  have hsmem := (getById_spec hs).1
  have hsid := (getById_spec hs).2
  obtain ⟨k, hk⟩ : ∃ k, db.length = k + 1 :=
    ⟨db.length - 1, by
      have := List.length_pos.2 (List.ne_nil_of_mem hsmem); omega⟩
  rw [delete, getById_map _ (deleteStamp_id now user _), hs]
  have hdep : sid ∈ dependents db pid := mem_dependents hsmem hsp hsnd hsid
  have hmem : sid ∈ collectCascade (dependents db) (db.length + 1) roots := by
    rw [hk]
    exact mem_collectCascade_step _ _ _ _ _ hroot hdep
  simp [deleteStamp, hasIdIn_eq_true hsid hmem, hsnd]

/-- A delete leaves an already-soft-deleted row unchanged. -/
theorem getById_delete_deleted {db : CCDatabase} {sid : Nat}
    {s : CCObject} (now : Time) (user : Option UserId)
    (roots : List Nat) {t0 : Time} (hs : getById db sid = some s)
    (hsd : s.deleted_on = some t0) :
    getById (delete now user roots db) sid = some s := by
  rw [delete, getById_map _ (deleteStamp_id now user _), hs]
  simp [deleteStamp, hsd]

/-- Unfolding `undelete` at a soft-deleted row. -/
theorem undelete_eq_map {db : CCDatabase} {pid : Nat} {p : CCObject}
    {t : Time} (hp : getById db pid = some p)
    (hpd : p.deleted_on = some t) :
    undelete pid db = db.map (clearStamp
      (collectCascade (matchingDependents db t) (db.length + 1) [pid])) := by
  unfold undelete
  rw [hp]
  dsimp only
  rw [hpd]

/-- Undeleting a soft-deleted row clears its deletion fields. -/
theorem getById_undelete_root {db : CCDatabase} {pid : Nat}
    {p : CCObject} {t : Time} (hp : getById db pid = some p)
    (hpd : p.deleted_on = some t) :
    getById (undelete pid db) pid =
      some { p with deleted_on := none, deleted_by := none } := by
  have hpid := (getById_spec hp).2
  rw [undelete_eq_map hp hpd, getById_map _ (clearStamp_id _), hp]
  have hmem : pid ∈ collectCascade (matchingDependents db t)
      (db.length + 1) [pid] :=
    mem_collectCascade_self _ _ _ _ (by simp)
  simp [clearStamp, hasIdIn_eq_true hpid hmem]

/-- Undelete cascades to a dependent whose deletion timestamp matches
the parent's. -/
theorem getById_undelete_dependent_match {db : CCDatabase}
    {pid sid : Nat} {p s : CCObject} {t : Time}
    (hp : getById db pid = some p) (hpd : p.deleted_on = some t)
    (hs : getById db sid = some s) (hsp : s.parent = some pid)
    (hsd : s.deleted_on = some t) :
    getById (undelete pid db) sid =
      some { s with deleted_on := none, deleted_by := none } := by
  have hsmem := (getById_spec hs).1
  have hsid := (getById_spec hs).2
  obtain ⟨k, hk⟩ : ∃ k, db.length = k + 1 :=
    ⟨db.length - 1, by
      have := List.length_pos.2 (List.ne_nil_of_mem hsmem); omega⟩
  rw [undelete_eq_map hp hpd, getById_map _ (clearStamp_id _), hs]
  have hdep : sid ∈ matchingDependents db t pid :=
    mem_matchingDependents hsmem hsp hsd hsid
  have hmem : sid ∈ collectCascade (matchingDependents db t)
      (db.length + 1) [pid] := by
    rw [hk]
    exact mem_collectCascade_step _ _ _ _ _ (by simp) hdep
  simp [clearStamp, hasIdIn_eq_true hsid hmem]

/-- Undelete does not touch a dependent whose deletion timestamp differs
from the parent's (ids assumed distinct, as in a database table). -/
theorem getById_undelete_dependent_mismatch {db : CCDatabase}
    {pid sid : Nat} {p s : CCObject} {tp ts : Time}
    (hnodup : (db.filterMap (fun o => o.id)).Nodup)
    (hp : getById db pid = some p) (hpd : p.deleted_on = some tp)
    (hs : getById db sid = some s) (hsd : s.deleted_on = some ts)
    (hne : ts ≠ tp) (hnid : sid ≠ pid) :
    getById (undelete pid db) sid = some s := by
  have hsmem := (getById_spec hs).1
  have hsid := (getById_spec hs).2
  rw [undelete_eq_map hp hpd, getById_map _ (clearStamp_id _), hs]
  have hnotmem : sid ∉ collectCascade (matchingDependents db tp)
      (db.length + 1) [pid] := by
    intro hmem
    rcases collectCascade_sound _ _ _ _ hmem with h | ⟨q, hq⟩
    · simp at h; exact hnid h
    · rcases matchingDependents_sound hq with ⟨o, ho, hoid, _, hod⟩
      have : o = s := eq_of_id_nodup hnodup ho hsmem hoid hsid
      rw [this] at hod
      rw [hod] at hsd
      exact hne (Option.some.inj hsd).symm
  simp [clearStamp, hasIdIn_eq_false hsid hnotmem]

/-! ## Claims -/

/-- C1: undelete cascades only to matching dependents — for a parent `p`
with a soft-deleted dependent `s` reachable via the declared cascade
relation, `p.undelete()` clears `s`'s `deleted_on`/`deleted_by` if and
only if `s.deleted_on` exactly equals `p.deleted_on`; a dependent deleted
at a different time remains soft-deleted. -/
theorem c1_undelete_cascades_only_to_matching
    {db : CCDatabase} {pid sid : Nat} {p s : CCObject} {tp ts : Time}
    (hnodup : (db.filterMap (fun o => o.id)).Nodup)
    (hp : getById db pid = some p) (hpd : p.deleted_on = some tp)
    (hs : getById db sid = some s) (hsp : s.parent = some pid)
    (hsd : s.deleted_on = some ts) (hnid : sid ≠ pid) :
    (ts = tp → getById (undelete pid db) sid =
      some { s with deleted_on := none, deleted_by := none }) ∧
    (ts ≠ tp → getById (undelete pid db) sid = some s) := by
  constructor
  · intro he
    subst he
    exact getById_undelete_dependent_match hp hpd hs hsp hsd
  · intro hne
    exact getById_undelete_dependent_mismatch hnodup hp hpd hs hsd hne hnid

/-- C1 witness: in the two-row database where the suite was deleted
independently at time 3 and the product at time 5, undeleting the
product leaves the suite soft-deleted. -/
theorem c1_witness :
    ((3 : Time) = 5 → getById (undelete 1 [pDel, sDelOther]) 2 =
      some { sDelOther with deleted_on := none, deleted_by := none }) ∧
    ((3 : Time) ≠ 5 → getById (undelete 1 [pDel, sDelOther]) 2 =
      some sDelOther) :=
  c1_undelete_cascades_only_to_matching (by decide) rfl rfl rfl rfl rfl
    (by decide)

/-- C2: cascade delete stamps dependents identically — deleting a parent
(instance or queryset, with an optional user) sets a not-yet-deleted
dependent's `deleted_on` to the same timestamp as the parent's and
`deleted_by` to the same optional user. -/
theorem c2_cascade_delete_stamps_identically
    {db : CCDatabase} {pid sid : Nat} {p s : CCObject}
    (now : Time) (user : Option UserId) {roots : List Nat}
    (hroot : pid ∈ roots)
    (hp : getById db pid = some p) (hpnd : p.deleted_on = none)
    (hs : getById db sid = some s) (hsp : s.parent = some pid)
    (hsnd : s.deleted_on = none) :
    getById (delete now user roots db) pid =
      some { p with deleted_on := some now, deleted_by := user } ∧
    getById (delete now user roots db) sid =
      some { s with deleted_on := some now, deleted_by := user } ∧
    ({ s with deleted_on := some now, deleted_by := user } :
        CCObject).deleted_on =
      ({ p with deleted_on := some now, deleted_by := user } :
        CCObject).deleted_on :=
  ⟨getById_delete_root now user hp hroot hpnd,
   getById_delete_dependent now user hroot hs hsp hsnd, rfl⟩

/-- C2 witness: deleting the product (id 1) at time 5 by user 7 stamps
both the product and its dependent suite with time 5 and user 7. -/
theorem c2_witness :
    getById (delete 5 (some 7) [1] exDb) 1 = some pDel ∧
    getById (delete 5 (some 7) [1] exDb) 2 = some sDelMatch ∧
    (sDelMatch.deleted_on = pDel.deleted_on) := by
  have h := @c2_cascade_delete_stamps_identically exDb 1 2 pEx sEx
    5 (some 7) [1] (by decide) rfl rfl rfl rfl rfl
  exact ⟨h.1, h.2.1, rfl⟩

/-- C3: cascade delete skips already-deleted dependents — a dependent
soft-deleted before its parent keeps its original `deleted_on`, so its
timestamp differs from the parent's when the two deletions happened at
different times. -/
theorem c3_cascade_delete_skips_predeleted
    {db : CCDatabase} {pid sid : Nat} {p s : CCObject} {t0 : Time}
    (now : Time) (user : Option UserId) {roots : List Nat}
    (hroot : pid ∈ roots)
    (hp : getById db pid = some p) (hpnd : p.deleted_on = none)
    (hs : getById db sid = some s) (_hsp : s.parent = some pid)
    (hsd : s.deleted_on = some t0) :
    getById (delete now user roots db) sid = some s ∧
    getById (delete now user roots db) pid =
      some { p with deleted_on := some now, deleted_by := user } ∧
    (t0 ≠ now → s.deleted_on ≠
      ({ p with deleted_on := some now, deleted_by := user } :
        CCObject).deleted_on) := by
  refine ⟨getById_delete_deleted now user roots hs hsd,
    getById_delete_root now user hp hroot hpnd, ?_⟩
  intro hne
  rw [hsd]
  simpa using hne

/-- C3 witness: with the suite already deleted at time 3, deleting the
product at time 5 leaves the suite's stamp at 3, different from the
product's 5. -/
theorem c3_witness :
    getById (delete 5 (some 7) [1] [pEx, sDelOther]) 2 = some sDelOther ∧
    getById (delete 5 (some 7) [1] [pEx, sDelOther]) 1 = some pDel ∧
    ((3 : Time) ≠ 5 → sDelOther.deleted_on ≠ pDel.deleted_on) := by
  have h := @c3_cascade_delete_skips_predeleted [pEx, sDelOther] 1 2
    pEx sDelOther 3 5 (some 7) [1] (by decide) rfl rfl rfl rfl rfl
  exact ⟨h.1, h.2.1, fun hne => h.2.2 hne⟩

/-- C4: delete is soft — deleting a saved object (instance or queryset,
optional user) removes no row; it stamps `deleted_on` with the current
time and `deleted_by` with the given user (or `none`), and the object is
still retrievable afterward. -/
theorem c4_delete_is_soft
    {db : CCDatabase} {pid : Nat} {p : CCObject}
    (now : Time) (user : Option UserId) {roots : List Nat}
    (hroot : pid ∈ roots)
    (hp : getById db pid = some p) (hnd : p.deleted_on = none) :
    (delete now user roots db).length = db.length ∧
    getById (delete now user roots db) pid =
      some { p with deleted_on := some now, deleted_by := user } :=
  ⟨by simp [delete], getById_delete_root now user hp hroot hnd⟩

/-- C4 witness: deleting the product at time 5 with no user keeps both
rows and stamps the product with time 5 and user `none`. -/
theorem c4_witness :
    (delete 5 none [1] exDb).length = exDb.length ∧
    getById (delete 5 none [1] exDb) 1 =
      some { pEx with deleted_on := some 5, deleted_by := none } :=
  @c4_delete_is_soft exDb 1 pEx 5 none [1] (by decide) rfl rfl

/-- C5: default queries exclude soft-deleted rows — a row is in the
default `objects` manager's results iff it is not soft-deleted, while
the `everything` manager returns every stored row. -/
theorem c5_default_manager_excludes_deleted
    (db : CCDatabase) (o : CCObject) (ho : o ∈ db) :
    (o ∈ objectsAll db ↔ o.deleted_on = none) ∧
    o ∈ everythingAll db ∧ everythingAll db = db := by
  refine ⟨?_, ho, rfl⟩
  simp [objectsAll, List.mem_filter, ho]

/-- C5 witness: in a database holding one live and one deleted product,
the deleted one is excluded from `objects` but present in `everything`. -/
theorem c5_witness :
    (pDel ∈ objectsAll [pEx, pDel] ↔ pDel.deleted_on = none) ∧
    pDel ∈ everythingAll [pEx, pDel] ∧
    everythingAll [pEx, pDel] = [pEx, pDel] :=
  c5_default_manager_excludes_deleted [pEx, pDel] pDel (by simp)

/-- C6: save stamps audit fields — `create()` or a first `save()` sets
`created_on`/`modified_on` to the current time and
`created_by`/`modified_by` to the optional caller-supplied user, while a
later `save()` of an existing object refreshes the modified fields and
preserves the created fields. -/
theorem c6_save_stamps_audit_fields
    (now : Time) (user : Option UserId) (newId : Nat) (nm : String)
    (par : Option Nat) (o : CCObject) :
    ((create now user newId nm par).created_on = some now ∧
     (create now user newId nm par).created_by = user ∧
     (create now user newId nm par).modified_on = some now ∧
     (create now user newId nm par).modified_by = user) ∧
    (o.id = none →
      (save now user newId o).created_on = some now ∧
      (save now user newId o).created_by = user ∧
      (save now user newId o).modified_on = some now ∧
      (save now user newId o).modified_by = user) ∧
    (o.id ≠ none →
      (save now user newId o).created_on = o.created_on ∧
      (save now user newId o).created_by = o.created_by ∧
      (save now user newId o).modified_on = some now ∧
      (save now user newId o).modified_by = user) := by
  refine ⟨⟨rfl, rfl, rfl, rfl⟩, ?_, ?_⟩
  · intro h
    simp [save, h]
  · intro h
    cases hid : o.id with
    | none => exact absurd hid h
    | some j => simp [save, hid]

/-- C6 witness: a first save stamps creation at time 5 by user 7; a
later save of the stored product at time 6 with no user refreshes
modification and preserves creation. -/
theorem c6_witness :
    ((save 5 (some 7) 1 (newObject "Foo" none)).created_on = some 5 ∧
     (save 5 (some 7) 1 (newObject "Foo" none)).created_by = some 7) ∧
    ((save 6 none 2 pEx).created_on = pEx.created_on ∧
     (save 6 none 2 pEx).modified_on = some 6) :=
  ⟨⟨((c6_save_stamps_audit_fields 5 (some 7) 1 "Foo" none
        (newObject "Foo" none)).2.1 rfl).1,
    ((c6_save_stamps_audit_fields 5 (some 7) 1 "Foo" none
        (newObject "Foo" none)).2.1 rfl).2.1⟩,
   ⟨((c6_save_stamps_audit_fields 6 none 2 "Foo" none pEx).2.2
        (by decide)).1,
    ((c6_save_stamps_audit_fields 6 none 2 "Foo" none pEx).2.2
        (by decide)).2.2.1⟩⟩

/-- C7: queryset update stamps modification audit fields — every row of
the queryset gets `modified_on` set to the current time and
`modified_by` set to the optional user given to `update()`. -/
theorem c7_update_stamps_modified
    {db : CCDatabase} (now : Time) (user : Option UserId)
    (newName : String) {qs : List Nat} {i : Nat} {s : CCObject}
    (hs : getById db i = some s) (hqs : i ∈ qs) :
    getById (update now user newName qs db) i =
      some { s with name := newName, modified_on := some now,
                    modified_by := user } := by
  have hsid := (getById_spec hs).2
  rw [update, getById_map _ (updateStamp_id now user newName qs), hs]
  simp [updateStamp, hasIdIn_eq_true hsid hqs]

/-- C7 witness: updating the whole product table at time 6 with no user
renames the product and stamps `modified_on := 6`, `modified_by :=
none`. -/
theorem c7_witness :
    getById (update 6 none "Baz" [1, 2] exDb) 1 =
      some { pEx with name := "Baz", modified_on := some 6,
                      modified_by := none } :=
  @c7_update_stamps_modified exDb 6 none "Baz" [1, 2] 1 pEx rfl
    (by decide)

/-- C8: delete followed by undelete is a round trip — a saved,
not-deleted object, after `delete()` then `undelete()` (instance, or the
singleton `everything`-queryset undelete), has `deleted_on = none` and
`deleted_by = none`. -/
theorem c8_delete_undelete_roundtrip
    {db : CCDatabase} (now : Time) (user : Option UserId) {pid : Nat}
    {p : CCObject} (hp : getById db pid = some p)
    (hnd : p.deleted_on = none) :
    getById (undelete pid (delete now user [pid] db)) pid =
      some { p with deleted_on := none, deleted_by := none } ∧
    querysetUndelete [pid] (delete now user [pid] db) =
      undelete pid (delete now user [pid] db) := by
  refine ⟨?_, rfl⟩
  have h2 : getById (delete now user [pid] db) pid =
      some { p with deleted_on := some now, deleted_by := user } :=
    getById_delete_root now user hp (by simp) hnd
  exact @getById_undelete_root (delete now user [pid] db) pid
    { p with deleted_on := some now, deleted_by := user } now h2 rfl

/-- C8 witness: deleting the product at time 5 by user 7 and undeleting
it restores `deleted_on = none`, `deleted_by = none`. -/
theorem c8_witness :
    getById (undelete 1 (delete 5 (some 7) [1] exDb)) 1 =
      some { pEx with deleted_on := none, deleted_by := none } ∧
    querysetUndelete [1] (delete 5 (some 7) [1] exDb) =
      undelete 1 (delete 5 (some 7) [1] exDb) :=
  @c8_delete_undelete_roundtrip exDb 5 (some 7) 1 pEx rfl rfl

/-- C9: saving an existing object without a user argument resets
`modified_by` to `none` rather than preserving the previously stored
user. -/
theorem c9_save_without_user_resets_modified_by
    (now : Time) (newId : Nat) {o : CCObject} {u : UserId}
    (hid : o.id ≠ none) (_hmb : o.modified_by = some u) :
    (save now none newId o).modified_by = none := by
  cases h : o.id with
  | none => exact absurd h hid
  | some j => simp [save, h]

/-- C9 witness: saving the stored product (whose `modified_by` is user
7) at time 6 with no user resets `modified_by` to `none`. -/
theorem c9_witness :
    (save 6 none 9 { pEx with modified_by := some 7 }).modified_by =
      none :=
  @c9_save_without_user_resets_modified_by 6 9
    { pEx with modified_by := some 7 } 7 (by decide) rfl
